import Mathlib

/-!
Verification of the smart-Strategy leader-detection heuristics.

The Python sources are shallowly embedded: timestamps are integers (seconds),
Python dicts become insertion-ordered association lists, `deque` buffers become
lists (front = oldest), Python floats for market caps become rationals, and the
stateful streaming loops become explicit state-passing functions.
-/

/-- Lookup in an insertion-ordered association list (Python `dict.get`). -/
def alookup {α β : Type} [DecidableEq α] (k : α) : List (α × β) → Option β
  | [] => none
  | (a, b) :: rest => if a = k then some b else alookup k rest

/-- Set a key's value, keeping insertion order (Python `d[k] = v`). -/
def aset {α β : Type} [DecidableEq α] (k : α) (v : β) : List (α × β) → List (α × β)
  | [] => [(k, v)]
  | (a, b) :: rest => if a = k then (a, v) :: rest else (a, b) :: aset k v rest

/-- Update a key's value through `f`, starting from `dflt` when the key is
absent (Python `defaultdict` mutation such as `d[k].append(x)`). -/
def aupdate {α β : Type} [DecidableEq α] (k : α) (f : β → β) (dflt : β) :
    List (α × β) → List (α × β)
  | [] => [(k, f dflt)]
  | (a, b) :: rest => if a = k then (a, f b) :: rest else (a, b) :: aupdate k f dflt rest

/-- One step of vote tallying: increment `k`'s counter, appending a fresh
counter at the end when `k` is new (Python `defaultdict(int)` insertion order). -/
def bump (k : String) : List (String × Nat) → List (String × Nat)
  | [] => [(k, 1)]
  | (a, n) :: rest => if a = k then (a, n + 1) :: rest else (a, n) :: bump k rest

/-- Tally a vote list into insertion-ordered counters, like the Python loop
`for v in votes: counter[v] += 1` over a `defaultdict(int)`. -/
def tally (votes : List String) : List (String × Nat) :=
  votes.foldl (fun acc v => bump v acc) []

/-- Python `max(items, key=value)`: left-to-right scan keeping the current
maximum, replacing it only on a strictly greater value (first of ties wins). -/
def maxFirstAux (cur : String × Nat) : List (String × Nat) → String × Nat
  | [] => cur
  | p :: rest => maxFirstAux (if cur.2 < p.2 then p else cur) rest

/-- Count under a key, defaulting to 0 (Python `counter[k]` read). -/
def valueOf (k : String) (l : List (String × Nat)) : Nat :=
  (alookup k l).getD 0

/-- Sum of all counters (Python `sum(counter.values())`). -/
def sumValues (l : List (String × Nat)) : Nat :=
  (l.map Prod.snd).sum

namespace SmartMoney

/-- `BuyEvent` namedtuple of smart_money_detector.py. -/
structure BuyEventL where
  timestamp : Int
  buyer : String
  tokenMint : String
  amount : Int
  market : String
deriving DecidableEq, Repr

/-- `TIME_WINDOW_SECONDS = 30`. -/
def TIME_WINDOW_SECONDS : Int := 30

/-- `MIN_GROUP_SIZE = 3`. -/
def MIN_GROUP_SIZE : Nat := 3

/-- `MIN_GROUP_SIGHTINGS = 2`. -/
def MIN_GROUP_SIGHTINGS : Nat := 2

/-- `HISTORY_MINUTES = 10`, expressed in seconds. -/
def HISTORY_SECONDS : Int := 600

/-- `LEADER_LOG_COOLDOWN_SECONDS = 300`. -/
def LEADER_LOG_COOLDOWN_SECONDS : Int := 300

/-- `prune_old_events`: pop from the front while the oldest event is strictly
older than `now - H`; stop at the first event inside the horizon. -/
def prune_old_events (historySec now : Int) : List BuyEventL → List BuyEventL
  | [] => []
  | e :: rest =>
    if e.timestamp < now - historySec then prune_old_events historySec now rest
    else e :: rest

/-- Backward scan of `find_groups` (the source iterates `reversed(recent_buys)`,
so this takes the reversed buffer): break at the first event older than the
window start, collect the buyer of every same-mint other-buyer event. -/
def scanMatched (windowStart : Int) (mint buyer : String) :
    List BuyEventL → List String
  | [] => []
  | ev :: rest =>
    if ev.timestamp < windowStart then []
    else if ev.tokenMint = mint ∧ ev.buyer ≠ buyer then
      ev.buyer :: scanMatched windowStart mint buyer rest
    else scanMatched windowStart mint buyer rest

/-- Module-level mutable state of smart_money_detector.py. -/
structure DetectorState where
  recentBuys : List BuyEventL
  groupSightings : List (Finset String × List String)
  groupFirstBuyer : List (Finset String × List String)
  lastLoggedLeader : List (String × Int)
deriving DecidableEq

/-- The empty initial state of the module. -/
def initState : DetectorState := ⟨[], [], [], []⟩

/-- `analyze_group`, parameterised by its thresholds and the current time, over
the group's sighting and first-buyer histories and the cooldown gate. Returns
the updated gate and the emitted leader alert, if any. `votes > total/2` on
Python ints is the integer condition `total < 2 * votes`. -/
def analyze_group (minSightings : Nat) (cooldown now : Int)
    (sightings votesHist : List String) (gate : List (String × Int)) :
    List (String × Int) × Option String :=
  if minSightings ≤ sightings.dedup.length then
    match tally votesHist with
    | [] => (gate, none)
    | p :: rest =>
      if sumValues (p :: rest) < 2 * (maxFirstAux p rest).2 then
        match alookup (maxFirstAux p rest).1 gate with
        | none =>
          (aset (maxFirstAux p rest).1 now gate, some (maxFirstAux p rest).1)
        | some last =>
          if cooldown < now - last then
            (aset (maxFirstAux p rest).1 now gate, some (maxFirstAux p rest).1)
          else (gate, none)
      else (gate, none)
  else (gate, none)

/-- `find_groups`: scan the buffer backward for same-mint other-wallet buys in
the trailing window; when at least `minGroupSize - 1` events match, form the
frozenset group, record sighting and first-buyer vote, and re-analyze the
group. Returns the new state, the group formed (if any) and the alert. -/
def find_groups (window : Int) (minGroupSize minSightings : Nat) (cooldown : Int)
    (now : Int) (e : BuyEventL) (st : DetectorState) :
    DetectorState × Option (Finset String) × Option String :=
  let matched := scanMatched (now - window) e.tokenMint e.buyer st.recentBuys.reverse
  if minGroupSize - 1 ≤ matched.length then
    let group : Finset String := insert e.buyer matched.toFinset
    let sightings := aupdate group (fun l => l ++ [e.tokenMint]) [] st.groupSightings
    let votes := aupdate group (fun l => l ++ [e.buyer]) [] st.groupFirstBuyer
    let res := analyze_group minSightings cooldown now
        ((alookup group sightings).getD []) ((alookup group votes).getD [])
        st.lastLoggedLeader
    ({ st with
        groupSightings := sightings,
        groupFirstBuyer := votes,
        lastLoggedLeader := res.1 }, some group, res.2)
  else (st, none, none)

/-- One iteration of the streaming loop for one detected buy: append the event,
prune, then run group detection, with `now` equal to the event's timestamp. -/
def processEvent (window : Int) (minGroupSize minSightings : Nat)
    (cooldown historySec : Int) (e : BuyEventL) (st : DetectorState) :
    DetectorState × Option (Finset String) × Option String :=
  let st1 := { st with
    recentBuys := prune_old_events historySec e.timestamp (st.recentBuys ++ [e]) }
  find_groups window minGroupSize minSightings cooldown e.timestamp e st1

/-- Run the streaming loop over a list of buy events, collecting alerts. -/
def processTrace (window : Int) (minGroupSize minSightings : Nat)
    (cooldown historySec : Int) : List BuyEventL → DetectorState →
    DetectorState × List String
  | [], st => (st, [])
  | e :: rest, st =>
    let r := processEvent window minGroupSize minSightings cooldown historySec e st
    let r2 := processTrace window minGroupSize minSightings cooldown historySec rest r.1
    (r2.1, (r.2.2.toList) ++ r2.2)

/-- Ordering of buffer events by timestamp. -/
def tsLE (a b : BuyEventL) : Prop := a.timestamp ≤ b.timestamp

/-- A window-buffer operation: a push of one event or a prune at a time. -/
inductive BufOp where
  | push (e : BuyEventL)
  | prune (now : Int)
deriving Repr

/-- The time at which an operation happens: a push happens at the event's
timestamp (the streaming loop stamps events with the arrival time), a prune at
its `now` argument. -/
def opTime : BufOp → Int
  | .push e => e.timestamp
  | .prune now => now

/-- Apply one operation to the flat buffer. -/
def applyOp (historySec : Int) (buf : List BuyEventL) : BufOp → List BuyEventL
  | .push e => buf ++ [e]
  | .prune now => prune_old_events historySec now buf

/-- Run a sequence of pushes and prunes from the empty buffer. -/
def runOps (historySec : Int) (ops : List BufOp) : List BuyEventL :=
  ops.foldl (applyOp historySec) []

/-- The predicate `find_groups` effectively filters the window with: a buy in
the trailing window on the same mint by another wallet. -/
def qualBuy (windowStart now : Int) (mint buyer : String) (ev : BuyEventL) : Bool :=
  decide (windowStart ≤ ev.timestamp ∧ ev.timestamp ≤ now ∧
    ev.tokenMint = mint ∧ ev.buyer ≠ buyer)

/-- The cooldown gate of `analyze_group` lets a leader through when the wallet
was never alerted or its last alert is strictly older than the cooldown. -/
def gateAllows (cooldown now : Int) (gate : List (String × Int))
    (c : String) : Bool :=
  match alookup c gate with
  | none => true
  | some last => decide (cooldown < now - last)

instance : DecidableRel tsLE :=
  fun a b => inferInstanceAs (Decidable (a.timestamp ≤ b.timestamp))

end SmartMoney

namespace Strat2

/-- The `(timestamp, buyer, mint, amount, is_sell)` tuple of strategy2.py. -/
structure BSEvent where
  ts : Int
  buyer : String
  mint : String
  amount : Int
  isSell : Bool
deriving DecidableEq, Repr

/-- `TIME_WINDOW_SECONDS = 30`. -/
def TIME_WINDOW_SECONDS : Int := 30

/-- `HISTORY_MINUTES = 10`, in seconds. -/
def HISTORY_SECONDS : Int := 600

/-- `MARKET_CAP_THRESHOLD = 500_000`. -/
def MARKET_CAP_THRESHOLD : ℚ := 500000

/-- Outcome of the Dexscreener HTTP request inside `fetch_market_cap`: either
an exception (network error, JSON parse error, unexpected error) or a response
with a status code and the optional `fdv` of each listed pair. -/
inductive FetchResult where
  | exn : FetchResult
  | resp (status : Int) (pairs : List (Option ℚ)) : FetchResult

/-- `fetch_market_cap`: every failure path (exception, non-200 status, no
pairs, missing fdv) returns 0; a successful lookup returns the first pair's
fdv. The source checks the status before the pairs; the case split here is
flattened but returns the same value on every input. -/
def fetch_market_cap : FetchResult → ℚ
  | .exn => 0
  | .resp _ [] => 0
  | .resp _ (none :: _) => 0
  | .resp status (some fdv :: _) => if status ≠ 200 then 0 else fdv

/-- Whether a fetch outcome is one of the failure paths of
`fetch_market_cap` (HTTP error, exception, missing pairs or fdv). -/
def fetchFailed : FetchResult → Bool
  | .exn => true
  | .resp _ [] => true
  | .resp _ (none :: _) => true
  | .resp status (some _ :: _) => decide (status ≠ 200)

/-- `prune_old_events` of strategy2.py, over the flat event deque. -/
def prune_old_events (historySec now : Int) : List BSEvent → List BSEvent
  | [] => []
  | e :: rest =>
    if e.ts < now - historySec then prune_old_events historySec now rest
    else e :: rest

/-- The `for past_event in relevant_events` loop of `analyze_fast_traders`:
on the first prior buy within the window, consult the market-cap cache (fetch
and cache on a miss or cached 0), alert when the cap passes the threshold
filter, and break. -/
def fastLoop (fetch : String → FetchResult) (window : Int) (capT : ℚ)
    (ev : BSEvent) (caps : List (String × ℚ)) :
    List BSEvent → Option (String × String) × List (String × ℚ)
  | [] => (none, caps)
  | past :: rest =>
    if past.isSell = false ∧ ev.isSell = true then
      if 0 < ev.ts - past.ts ∧ ev.ts - past.ts ≤ window then
        let cap0 := (alookup ev.mint caps).getD 0
        let cap := if cap0 = 0 then fetch_market_cap (fetch ev.mint) else cap0
        let caps1 := if cap0 = 0 then aset ev.mint cap caps else caps
        ((if cap ≤ capT then some (ev.buyer, ev.mint) else none), caps1)
      else fastLoop fetch window capT ev caps rest
    else fastLoop fetch window capT ev caps rest

/-- `analyze_fast_traders`: relevant history for the event's mint, early
return under two events, then the matching loop. The alert is the
`(buyer, mint)` pair logged as likely leader. -/
def analyze_fast_traders (fetch : String → FetchResult) (window : Int)
    (capT : ℚ) (ev : BSEvent) (history : List BSEvent)
    (caps : List (String × ℚ)) :
    Option (String × String) × List (String × ℚ) :=
  let relevant := history.filter (fun e => decide (e.mint = ev.mint))
  if relevant.length < 2 then (none, caps)
  else fastLoop fetch window capT ev caps relevant

/-- Module-level mutable state of strategy2.py. -/
structure S2State where
  recentEvents : List BSEvent
  buyerHistories : List (String × List BSEvent)
  tokenMarketCaps : List (String × ℚ)
deriving DecidableEq

/-- The empty initial state of strategy2.py. -/
def initS2 : S2State := ⟨[], [], []⟩

/-- One iteration of the streaming loop for one detected buy/sell: append to
the flat deque, prune, append to the wallet's history, and analyze on a sell,
with `now` equal to the event's timestamp. -/
def processEventS2 (fetch : String → FetchResult) (historySec window : Int)
    (capT : ℚ) (e : BSEvent) (st : S2State) :
    S2State × Option (String × String) :=
  let recent := prune_old_events historySec e.ts (st.recentEvents ++ [e])
  let hist := aupdate e.buyer (fun l => l ++ [e]) [] st.buyerHistories
  if e.isSell then
    let r := analyze_fast_traders fetch window capT e
        ((alookup e.buyer hist).getD []) st.tokenMarketCaps
    (⟨recent, hist, r.2⟩, r.1)
  else (⟨recent, hist, st.tokenMarketCaps⟩, none)

/-- Run the strategy2 streaming loop over a list of events, collecting
alerts. -/
def processTraceS2 (fetch : String → FetchResult) (historySec window : Int)
    (capT : ℚ) : List BSEvent → S2State → S2State × List (String × String)
  | [], st => (st, [])
  | e :: rest, st =>
    let r := processEventS2 fetch historySec window capT e st
    let r2 := processTraceS2 fetch historySec window capT rest r.1
    (r2.1, r.2.toList ++ r2.2)

end Strat2

namespace KillFollow

/-- One row of the ClickHouse query of killFollowStrategy.py:
`(ts, mint, traderPublicKey, txType, marketCapSol)`; the query keeps only
buys and sells, so the type is a boolean. -/
structure KRow where
  ts : Int
  mint : String
  trader : String
  isSell : Bool
  cap : Int
deriving DecidableEq, Repr

/-- Python tuple comparison on `(ts, tx_type)` used by `actions.sort()`:
lexicographic, with the string order making `'buy' < 'sell'`. -/
def actLE (a b : Int × Bool) : Bool :=
  decide (a.1 < b.1) || (decide (a.1 = b.1) && (!a.2 || b.2))

/-- Insertion step of the sort of the per-wallet per-mint action list. -/
def insertAct (a : Int × Bool) : List (Int × Bool) → List (Int × Bool)
  | [] => [a]
  | b :: rest => if actLE a b then a :: b :: rest else b :: insertAct a rest

/-- `actions.sort()`: sort the `(ts, is_sell)` pairs. -/
def sortActs : List (Int × Bool) → List (Int × Bool)
  | [] => []
  | a :: rest => insertAct a (sortActs rest)

/-- The inner `for j in range(i+1, ...)` scan: look for a sell after the buy
at `tbuy` with `0 < delta <= maxHold`, skipping buys and non-qualifying
sells, stopping at the first qualifying one. -/
def scanSellFrom (maxHold tbuy : Int) : List (Int × Bool) → Bool
  | [] => false
  | (ts, isS) :: rest =>
    if isS then
      if 0 < ts - tbuy ∧ ts - tbuy ≤ maxHold then true
      else scanSellFrom maxHold tbuy rest
    else scanSellFrom maxHold tbuy rest

/-- Number of times the outer loop appends the mint to `suspicious[trader]`:
one per buy whose forward scan finds a qualifying sell. -/
def flagCount (maxHold : Int) : List (Int × Bool) → Nat
  | [] => 0
  | (ts, isS) :: rest =>
    (if isS = false ∧ scanSellFrom maxHold ts rest = true then 1 else 0) +
      flagCount maxHold rest

/-- `trades[trader][mint]` before sorting: the `(ts, is_sell)` pairs of the
rows of this trader and mint, in row order. -/
def rowsFor (rows : List KRow) (tr m : String) : List (Int × Bool) :=
  (rows.filter (fun r => decide (r.trader = tr ∧ r.mint = m))).map
    (fun r => (r.ts, r.isSell))

/-- The distinct mints traded by a wallet, as keyed by `trades[trader]`. -/
def mintsFor (rows : List KRow) (tr : String) : List String :=
  ((rows.filter (fun r => decide (r.trader = tr))).map KRow.mint).dedup

/-- `suspicious[trader]`: the mint list accumulated by the outer loops, one
occurrence of a mint per flagged buy on it. -/
def suspiciousFor (maxHold : Int) (rows : List KRow) (tr : String) :
    List String :=
  ((mintsFor rows tr).map (fun m =>
    List.replicate (flagCount maxHold (sortActs (rowsFor rows tr m))) m)).flatten

/-- The distinct traders appearing in the rows, as keyed by `trades`. -/
def tradersOf (rows : List KRow) : List String :=
  (rows.map KRow.trader).dedup

/-- `detect_leader` of killFollowStrategy.py: keep the traders flagged on at
least 2 distinct mints, each with its deduplicated flagged-mint list. -/
def detect_leader (maxHold : Int) (rows : List KRow) :
    List (String × List String) :=
  (tradersOf rows).foldr (fun tr acc =>
    let toks := (suspiciousFor maxHold rows tr).dedup
    if 2 ≤ toks.length then (tr, toks) :: acc else acc) []

end KillFollow

namespace SeqStrat

/-- One row of the buy-event query of sequenceStrategy.py:
`(ts, mint, traderPublicKey, tokenAmount)`. -/
structure SRow where
  ts : Int
  mint : String
  trader : String
  amount : Int
deriving DecidableEq, Repr

/-- A `(timestamp, wallet, amount)` entry of a per-mint event list. -/
structure SEv where
  ts : Int
  trader : String
  amount : Int
deriving DecidableEq, Repr

/-- Lexicographic strict order on character lists: Python's string `<`
(code-point lexicographic), written out on the underlying characters. -/
def charListLt : List Char → List Char → Bool
  | [], [] => false
  | [], _ :: _ => true
  | _ :: _, [] => false
  | a :: as, b :: bs =>
    if a < b then true else if a = b then charListLt as bs else false

/-- Comparator of Python `sorted(...)` on wallet strings. -/
def strBefore (a b : String) : Bool := !(charListLt b.data a.data)

/-- Insertion step of the wallet sort. -/
def insertStr (a : String) : List String → List String
  | [] => [a]
  | b :: rest => if strBefore a b then a :: b :: rest else b :: insertStr a rest

/-- `tuple(sorted(wallets))`: the order-independent cluster key. -/
def sortStrings : List String → List String
  | [] => []
  | a :: rest => insertStr a (sortStrings rest)

/-- Python tuple comparison on `(ts, trader, amount)` used by
`events.sort()`. -/
def sevLE (a b : SEv) : Bool :=
  decide (a.ts < b.ts) ||
    (decide (a.ts = b.ts) &&
      (charListLt a.trader.data b.trader.data ||
        (decide (a.trader = b.trader) && decide (a.amount ≤ b.amount))))

/-- Insertion step of the per-mint event sort. -/
def insertSEv (a : SEv) : List SEv → List SEv
  | [] => [a]
  | b :: rest => if sevLE a b then a :: b :: rest else b :: insertSEv a rest

/-- `events.sort()`: sort a mint's events by `(ts, trader, amount)`. -/
def sortSEvs : List SEv → List SEv
  | [] => []
  | a :: rest => insertSEv a (sortSEvs rest)

/-- The inner `for j in range(i+1, ...)` walk of `find_clusters`: keep
subsequent events within `timeWindow` of the seed's timestamp whose amount
differs from the seed's amount, breaking at the first event past the
window. -/
def clusterFrom (windowSec ts1 a1 : Int) : List SEv → List SEv
  | [] => []
  | e :: rest =>
    if e.ts - ts1 ≤ windowSec then
      (if a1 ≠ e.amount then [e] else []) ++ clusterFrom windowSec ts1 a1 rest
    else []

/-- All clusters of a sorted per-mint event list, one seeded at each index. -/
def clustersOfEvents (windowSec : Int) : List SEv → List (List SEv)
  | [] => []
  | e :: rest =>
    (e :: clusterFrom windowSec e.ts e.amount rest) ::
      clustersOfEvents windowSec rest

/-- The distinct mints of the rows, as keyed by `mint_clusters`. -/
def mintsOf (rows : List SRow) : List String := (rows.map SRow.mint).dedup

/-- `mint_clusters[mint]` before sorting: the mint's `(ts, trader, amount)`
events in row order. -/
def eventsForMint (rows : List SRow) (m : String) : List SEv :=
  (rows.filter (fun r => decide (r.mint = m))).map
    (fun r => ⟨r.ts, r.trader, r.amount⟩)

/-- `find_clusters`: per mint, sort the events, build every seeded cluster,
keep those of size at least 3, and record each under the sorted tuple of its
wallets in `combo_tracker`. -/
def find_clusters (windowSec : Int) (rows : List SRow) :
    List (List String × List (String × List SEv)) :=
  (mintsOf rows).foldl (fun tracker m =>
    (clustersOfEvents windowSec (sortSEvs (eventsForMint rows m))).foldl
      (fun tk cl =>
        if 3 ≤ cl.length then
          aupdate (sortStrings (cl.map SEv.trader)) (fun l => l ++ [(m, cl)])
            [] tk
        else tk) tracker) []

/-- The wallet sequence of a cluster, as read by `detect_following_patterns`
(`tuple(x[1][i][1] for i in range(len(x[1])))`). -/
def seqOf (cl : List SEv) : List String := cl.map SEv.trader

/-- `Counter(firsts).most_common(1)[0][0]`: tally the first wallet of each
sequence and take the maximal count, first-encountered winning ties (Counter
keeps insertion order and its sort is stable). -/
def mostCommonFirst (seqs : List (List String)) : String :=
  match tally (seqs.map (fun s => s.headD "")) with
  | [] => ""
  | p :: rest => (maxFirstAux p rest).1

/-- Ordering of per-mint events by timestamp. -/
def sevTsLE (a b : SEv) : Prop := a.ts ≤ b.ts

instance : DecidableRel sevTsLE :=
  fun a b => inferInstanceAs (Decidable (a.ts ≤ b.ts))

/-- `detect_following_patterns`: for every participant-key with at least two
clusters whose wallet sequences are not all identical, emit one candidate:
the most common first wallet of the sequences, with the mints, participants
and sequences as evidence. Candidates are returned as a flat list (the
Python dict keyed by candidate is its grouping by first component). -/
def detect_following_patterns
    (tracker : List (List String × List (String × List SEv))) :
    List (String × (List String × List String × List (List String))) :=
  tracker.foldl (fun acc entry =>
    if entry.2.length < 2 then acc
    else
      let seqs := entry.2.map (fun x => seqOf x.2)
      if 1 < seqs.dedup.length then
        acc ++ [(mostCommonFirst seqs, (entry.2.map Prod.fst, entry.1, seqs))]
      else acc) []

/-- The candidates contributed by one tracker entry, as a list: empty unless
the entry has at least two clusters and non-identical sequences. -/
def contribOf (entry : List String × List (String × List SEv)) :
    List (String × (List String × List String × List (List String))) :=
  if entry.2.length < 2 then []
  else
    let seqs := entry.2.map (fun x => seqOf x.2)
    if 1 < seqs.dedup.length then
      [(mostCommonFirst seqs, (entry.2.map Prod.fst, entry.1, seqs))]
    else []

/-- `detect_leader` of sequenceStrategy.py (with the default
`time_window_sec = 10` made explicit). -/
def detect_leader (windowSec : Int) (rows : List SRow) :
    List (String × (List String × List String × List (List String))) :=
  detect_following_patterns (find_clusters windowSec rows)

end SeqStrat

theorem alookup_aset_self {α β : Type} [DecidableEq α] (k : α) (v : β)
    (l : List (α × β)) : alookup k (aset k v l) = some v := by
  induction l with
  | nil => simp [aset, alookup]
  | cons p rest ih =>
    obtain ⟨a, b⟩ := p
    by_cases h : a = k
    · simp [aset, alookup, h]
    · simp [aset, alookup, h, ih]

theorem alookup_aupdate_self {α β : Type} [DecidableEq α] (k : α) (f : β → β)
    (d : β) (l : List (α × β)) :
    alookup k (aupdate k f d l) = some (f ((alookup k l).getD d)) := by
  induction l with
  | nil => simp [aupdate, alookup]
  | cons p rest ih =>
    obtain ⟨a, b⟩ := p
    by_cases h : a = k
    · simp [aupdate, alookup, h]
    · simp [aupdate, alookup, h, ih]

theorem alookup_aupdate_ne {α β : Type} [DecidableEq α] {k q : α} (f : β → β)
    (d : β) (l : List (α × β)) (h : q ≠ k) :
    alookup q (aupdate k f d l) = alookup q l := by
  have hkq : k ≠ q := Ne.symm h
  induction l with
  | nil => simp [aupdate, alookup, hkq]
  | cons p rest ih =>
    obtain ⟨a, b⟩ := p
    by_cases ha : a = k
    · subst ha
      rw [aupdate, if_pos rfl, alookup, alookup, if_neg hkq, if_neg hkq]
    · rw [aupdate, if_neg ha, alookup, alookup]
      by_cases hq : a = q
      · rw [if_pos hq, if_pos hq]
      · rw [if_neg hq, if_neg hq, ih]

theorem aupdate_mem {α β : Type} [DecidableEq α] (k : α) (f : β → β) (d : β)
    (l : List (α × β)) (p : α × β) (h : p ∈ aupdate k f d l) :
    p ∈ l ∨ ∃ b : β, p = (k, f b) ∧ (b = d ∨ (k, b) ∈ l) := by
  induction l with
  | nil =>
    simp only [aupdate] at h
    rcases List.mem_singleton.mp h with rfl
    exact Or.inr ⟨d, rfl, Or.inl rfl⟩
  | cons q rest ih =>
    obtain ⟨a, b⟩ := q
    by_cases ha : a = k
    · subst ha
      rw [aupdate, if_pos rfl] at h
      rcases List.mem_cons.mp h with rfl | h
      · exact Or.inr ⟨b, rfl, Or.inr (List.mem_cons_self _ _)⟩
      · exact Or.inl (List.mem_cons_of_mem _ h)
    · rw [aupdate, if_neg ha] at h
      rcases List.mem_cons.mp h with rfl | h
      · exact Or.inl (List.mem_cons_self _ _)
      · rcases ih h with h | ⟨c, hc, hmem⟩
        · exact Or.inl (List.mem_cons_of_mem _ h)
        · refine Or.inr ⟨c, hc, ?_⟩
          rcases hmem with rfl | hmem
          · exact Or.inl rfl
          · exact Or.inr (List.mem_cons_of_mem _ hmem)

theorem keys_aupdate_of_mem {α β : Type} [DecidableEq α] (k : α) (f : β → β)
    (d : β) (l : List (α × β)) (h : k ∈ l.map Prod.fst) :
    (aupdate k f d l).map Prod.fst = l.map Prod.fst := by
  induction l with
  | nil => simp at h
  | cons q rest ih =>
    obtain ⟨a, b⟩ := q
    by_cases ha : a = k
    · simp [aupdate, ha]
    · rw [aupdate, if_neg ha]
      have : k ∈ rest.map Prod.fst := by
        rcases List.mem_map.mp h with ⟨p, hp, hk⟩
        rcases List.mem_cons.mp hp with rfl | hp
        · exact absurd hk ha
        · have := List.mem_map_of_mem Prod.fst hp
          rw [hk] at this
          exact this
      simp [ih this]

theorem keys_aupdate_of_not_mem {α β : Type} [DecidableEq α] (k : α)
    (f : β → β) (d : β) (l : List (α × β)) (h : k ∉ l.map Prod.fst) :
    (aupdate k f d l).map Prod.fst = l.map Prod.fst ++ [k] := by
  induction l with
  | nil => simp [aupdate]
  | cons q rest ih =>
    obtain ⟨a, b⟩ := q
    have ha : a ≠ k := by
      intro hak
      exact h (by simp [hak])
    rw [aupdate, if_neg ha]
    have : k ∉ rest.map Prod.fst := by
      intro hk
      exact h (by simp [hk])
    simp [ih this]

theorem keys_aupdate_nodup {α β : Type} [DecidableEq α] (k : α) (f : β → β)
    (d : β) (l : List (α × β)) (h : (l.map Prod.fst).Nodup) :
    ((aupdate k f d l).map Prod.fst).Nodup := by
  by_cases hk : k ∈ l.map Prod.fst
  · rw [keys_aupdate_of_mem k f d l hk]; exact h
  · rw [keys_aupdate_of_not_mem k f d l hk]
    refine h.append (List.nodup_singleton k) ?_
    intro a ha hb
    rw [List.mem_singleton] at hb
    subst hb
    exact hk ha

theorem bump_eq_aupdate (k : String) (l : List (String × Nat)) :
    bump k l = aupdate k (fun n => n + 1) 0 l := by
  induction l with
  | nil => simp [bump, aupdate]
  | cons p rest ih =>
    obtain ⟨a, b⟩ := p
    by_cases h : a = k
    · simp [bump, aupdate, h]
    · simp [bump, aupdate, h, ih]

theorem valueOf_bump_self (k : String) (l : List (String × Nat)) :
    valueOf k (bump k l) = valueOf k l + 1 := by
  rw [bump_eq_aupdate, valueOf, alookup_aupdate_self, valueOf]
  rfl

theorem valueOf_bump_ne {k q : String} (l : List (String × Nat)) (h : q ≠ k) :
    valueOf q (bump k l) = valueOf q l := by
  rw [bump_eq_aupdate, valueOf, alookup_aupdate_ne _ _ _ h, valueOf]

theorem tally_valueOf_aux (vs : List String) :
    ∀ (acc : List (String × Nat)) (k : String),
    valueOf k (vs.foldl (fun a v => bump v a) acc) = valueOf k acc + vs.count k := by
  induction vs with
  | nil => intro acc k; simp
  | cons v rest ih =>
    intro acc k
    simp only [List.foldl_cons]
    rw [ih]
    by_cases h : k = v
    · subst h
      rw [valueOf_bump_self]
      simp [List.count_cons]
      omega
    · rw [valueOf_bump_ne _ h]
      simp [List.count_cons, h]

theorem tally_valueOf (vs : List String) (k : String) :
    valueOf k (tally vs) = vs.count k := by
  rw [tally, tally_valueOf_aux]
  simp [valueOf, alookup]

theorem sumValues_bump (k : String) (l : List (String × Nat)) :
    sumValues (bump k l) = sumValues l + 1 := by
  induction l with
  | nil => simp [bump, sumValues]
  | cons p rest ih =>
    obtain ⟨a, b⟩ := p
    by_cases h : a = k
    · simp [bump, sumValues, h]
      omega
    · simp [bump, sumValues, h] at ih ⊢
      omega

theorem tally_sum_aux (vs : List String) :
    ∀ acc : List (String × Nat),
    sumValues (vs.foldl (fun a v => bump v a) acc) = sumValues acc + vs.length := by
  induction vs with
  | nil => intro acc; simp
  | cons v rest ih =>
    intro acc
    simp only [List.foldl_cons, List.length_cons]
    rw [ih, sumValues_bump]
    omega

theorem tally_sum (vs : List String) : sumValues (tally vs) = vs.length := by
  rw [tally, tally_sum_aux]
  simp [sumValues]

theorem tally_keys_nodup_aux (vs : List String) :
    ∀ acc : List (String × Nat), ((acc.map Prod.fst).Nodup) →
    (((vs.foldl (fun a v => bump v a) acc).map Prod.fst).Nodup) := by
  induction vs with
  | nil => intro acc h; simpa using h
  | cons v rest ih =>
    intro acc h
    simp only [List.foldl_cons]
    exact ih _ (by rw [bump_eq_aupdate]; exact keys_aupdate_nodup _ _ _ _ h)

theorem tally_keys_nodup (vs : List String) :
    ((tally vs).map Prod.fst).Nodup :=
  tally_keys_nodup_aux vs [] (by simp)

theorem alookup_eq_some_mem {α β : Type} [DecidableEq α] {k : α} {v : β}
    {l : List (α × β)} (h : alookup k l = some v) : (k, v) ∈ l := by
  induction l with
  | nil => simp [alookup] at h
  | cons p rest ih =>
    obtain ⟨a, b⟩ := p
    by_cases ha : a = k
    · subst ha
      rw [alookup, if_pos rfl] at h
      obtain rfl := Option.some.inj h
      exact List.mem_cons_self _ _
    · rw [alookup, if_neg ha] at h
      exact List.mem_cons_of_mem _ (ih h)

theorem alookup_of_mem_nodup {α β : Type} [DecidableEq α] {l : List (α × β)}
    {p : α × β} (hn : (l.map Prod.fst).Nodup) (h : p ∈ l) :
    alookup p.1 l = some p.2 := by
  induction l with
  | nil => simp at h
  | cons q rest ih =>
    obtain ⟨a, b⟩ := q
    rw [List.map_cons, List.nodup_cons] at hn
    rcases List.mem_cons.mp h with rfl | h
    · rw [alookup, if_pos rfl]
    · have ha : a ≠ p.1 := by
        intro hap
        refine hn.1 ?_
        rw [hap]
        exact List.mem_map.mpr ⟨p, h, rfl⟩
      rw [alookup, if_neg ha]
      exact ih hn.2 h

theorem maxFirstAux_mem (cur : String × Nat) (l : List (String × Nat)) :
    maxFirstAux cur l ∈ cur :: l := by
  induction l generalizing cur with
  | nil => simp [maxFirstAux]
  | cons p rest ih =>
    rw [maxFirstAux]
    rcases List.mem_cons.mp (ih (if cur.2 < p.2 then p else cur)) with h2 | h2
    · rw [h2]
      by_cases h : cur.2 < p.2
      · simp [h]
      · simp [h]
    · exact List.mem_cons_of_mem _ (List.mem_cons_of_mem _ h2)

theorem maxFirstAux_ge (cur : String × Nat) (l : List (String × Nat)) :
    ∀ p ∈ cur :: l, p.2 ≤ (maxFirstAux cur l).2 := by
  induction l generalizing cur with
  | nil =>
    intro p hp
    rcases List.mem_singleton.mp hp with rfl
    simp [maxFirstAux]
  | cons q rest ih =>
    intro p hp
    rw [maxFirstAux]
    rcases List.mem_cons.mp hp with rfl | hp
    · by_cases h : p.2 < q.2
      · rw [if_pos h]
        have hq := ih q q (List.mem_cons_self _ _)
        omega
      · rw [if_neg h]
        exact ih p p (List.mem_cons_self _ _)
    · rcases List.mem_cons.mp hp with rfl | hp
      · by_cases h : cur.2 < p.2
        · rw [if_pos h]
          exact ih p p (List.mem_cons_self _ _)
        · rw [if_neg h]
          have hc := ih cur cur (List.mem_cons_self _ _)
          omega
      · by_cases h : cur.2 < q.2
        · rw [if_pos h]
          exact ih q p (List.mem_cons_of_mem _ hp)
        · rw [if_neg h]
          exact ih cur p (List.mem_cons_of_mem _ hp)

theorem count_pair_le {a b : String} (l : List String) (h : a ≠ b) :
    l.count a + l.count b ≤ l.length := by
  induction l with
  | nil => simp
  | cons x rest ih =>
    simp only [List.count_cons, List.length_cons, beq_iff_eq]
    by_cases hx : a = x
    · subst hx
      have hba : ¬b = a := fun hb => h hb.symm
      have hab : ¬a = b := fun hb => h hb
      simp [hba, hab]
      omega
    · by_cases hbx : b = x
      · subst hbx
        have hba : ¬b = a := fun hb => h hb.symm
        simp [h, hba]
        omega
      · have hxa : ¬x = a := fun hb => hx hb.symm
        have hxb : ¬x = b := fun hb => hbx hb.symm
        simp [hx, hbx, hxa, hxb]
        omega

theorem tally_majority (votes : List String) (c : String)
    (hmaj : votes.length < 2 * votes.count c) (p : String × Nat)
    (rest : List (String × Nat)) (ht : tally votes = p :: rest) :
    maxFirstAux p rest = (c, votes.count c) := by
  have hlook : alookup c (tally votes) = some (votes.count c) := by
    have hv := tally_valueOf votes c
    rcases hE : alookup c (tally votes) with _ | v
    · rw [valueOf, hE] at hv
      simp at hv
      omega
    · rw [valueOf, hE] at hv
      simp at hv
      rw [hv]
  have hmemc : (c, votes.count c) ∈ tally votes := alookup_eq_some_mem hlook
  rcases hm : maxFirstAux p rest with ⟨r1, r2⟩
  have hrmem : (r1, r2) ∈ tally votes := by
    rw [ht]
    rw [← hm]
    exact maxFirstAux_mem p rest
  have hge : votes.count c ≤ r2 := by
    have := maxFirstAux_ge p rest (c, votes.count c) (by rw [← ht]; exact hmemc)
    rw [hm] at this
    exact this
  have hrval : alookup r1 (tally votes) = some r2 :=
    alookup_of_mem_nodup (tally_keys_nodup votes) hrmem
  have hrcount : r2 = votes.count r1 := by
    have hv := tally_valueOf votes r1
    rw [valueOf, hrval] at hv
    simpa using hv
  by_cases hc : r1 = c
  · subst hc
    rw [hrcount]
  · exfalso
    have hcnt := count_pair_le votes hc
    omega


namespace SmartMoney

theorem tally_ne_nil_of_count_pos {v : List String} {c : String}
    (h : 0 < v.count c) : ∃ p rest, tally v = p :: rest := by
  rcases hE : tally v with _ | ⟨p, rest⟩
  · exfalso
    have hv := tally_valueOf v c
    rw [hE] at hv
    simp [valueOf, alookup] at hv
    omega
  · exact ⟨p, rest, rfl⟩

theorem analyze_group_emit (minS : Nat) (cooldown now : Int)
    (s v : List String) (gate : List (String × Int)) (c : String)
    (hs : minS ≤ s.dedup.length) (hmaj : v.length < 2 * v.count c)
    (hgate : gateAllows cooldown now gate c = true) :
    analyze_group minS cooldown now s v gate = (aset c now gate, some c) := by
  have hcpos : 0 < v.count c := by omega
  obtain ⟨p, rest, ht⟩ := tally_ne_nil_of_count_pos hcpos
  have hmax := tally_majority v c hmaj p rest ht
  have htot : sumValues (p :: rest) = v.length := by rw [← ht, tally_sum]
  rw [analyze_group, if_pos hs, ht]
  simp only [hmax, htot]
  rw [if_pos (by simpa using hmaj)]
  rw [gateAllows] at hgate
  split at hgate
  · rfl
  · rename_i last hE
    simp only [decide_eq_true_eq] at hgate
    change (if cooldown < now - last then
        ((aset c now gate, some c) : List (String × Int) × Option String)
      else (gate, none)) = (aset c now gate, some c)
    rw [if_pos hgate]

theorem analyze_group_emitted_eq (minS : Nat) (cooldown now : Int)
    (s v : List String) (gate : List (String × Int)) (c : String)
    (h : (analyze_group minS cooldown now s v gate).2 = some c) :
    analyze_group minS cooldown now s v gate = (aset c now gate, some c) := by
  unfold analyze_group at h ⊢
  split at h
  · rename_i hs
    rw [if_pos hs]
    split at h
    · simp at h
    · rename_i p rest ht
      split at h
      · rename_i hlt
        rw [if_pos hlt]
        split at h
        · have hc1 : (maxFirstAux p rest).1 = c := by simpa using h
          rw [hc1]
        · rename_i last hE
          split at h
          · rename_i hcool
            rw [if_pos hcool, (by simpa using h : (maxFirstAux p rest).1 = c)]
          · simp at h
      · simp at h
  · simp at h

theorem analyze_group_emitted_majority (minS : Nat) (cooldown now : Int)
    (s v : List String) (gate : List (String × Int)) (c : String)
    (h : (analyze_group minS cooldown now s v gate).2 = some c) :
    v.length < 2 * v.count c := by
  unfold analyze_group at h
  split at h
  · split at h
    · simp at h
    · rename_i p rest ht
      split at h
      · rename_i hlt
        have hw : maxFirstAux p rest ∈ tally v := by
          rw [ht]
          exact maxFirstAux_mem p rest
        have hval : alookup (maxFirstAux p rest).1 (tally v) =
            some (maxFirstAux p rest).2 :=
          alookup_of_mem_nodup (tally_keys_nodup v) hw
        have hcount : (maxFirstAux p rest).2 =
            v.count (maxFirstAux p rest).1 := by
          have hv := tally_valueOf v (maxFirstAux p rest).1
          rw [valueOf, hval] at hv
          simpa using hv
        have htot : sumValues (p :: rest) = v.length := by
          rw [← ht, tally_sum]
        have hc1 : (maxFirstAux p rest).1 = c := by
          split at h
          · simpa using h
          · rename_i last hE
            split at h
            · simpa using h
            · simp at h
        rw [hc1] at hcount
        omega
      · simp at h
  · simp at h

theorem analyze_group_stamp (minS : Nat) (cooldown now : Int)
    (s v : List String) (gate : List (String × Int)) (c : String)
    (h : (analyze_group minS cooldown now s v gate).2 = some c) :
    alookup c (analyze_group minS cooldown now s v gate).1 = some now := by
  rw [analyze_group_emitted_eq minS cooldown now s v gate c h]
  exact alookup_aset_self c now gate

theorem analyze_group_suppressed (minS : Nat) (cooldown now : Int)
    (s v : List String) (gate : List (String × Int)) (c : String) (last : Int)
    (hlast : alookup c gate = some last) (hcool : ¬cooldown < now - last) :
    (analyze_group minS cooldown now s v gate).2 ≠ some c := by
  intro h
  unfold analyze_group at h
  split at h
  · split at h
    · simp at h
    · rename_i p rest ht
      split at h
      · split at h
        · rename_i hE
          have hc1 : (maxFirstAux p rest).1 = c := by simpa using h
          rw [hc1, hlast] at hE
          cases hE
        · rename_i last2 hE
          split at h
          · rename_i hcool2
            have hc1 : (maxFirstAux p rest).1 = c := by simpa using h
            rw [hc1, hlast] at hE
            obtain rfl := Option.some.inj hE
            exact hcool hcool2
          · simp at h
      · simp at h
  · simp at h

end SmartMoney

namespace SmartMoney

theorem prune_decomp (historySec now : Int) (buf : List BuyEventL) :
    ∃ removed, buf = removed ++ prune_old_events historySec now buf ∧
      ∀ e ∈ removed, e.timestamp < now - historySec := by
  induction buf with
  | nil => exact ⟨[], rfl, by simp⟩
  | cons e rest ih =>
    by_cases h : e.timestamp < now - historySec
    · obtain ⟨removed, hr, hall⟩ := ih
      refine ⟨e :: removed, ?_, ?_⟩
      · simpa [prune_old_events, h] using hr
      · intro x hx
        rcases List.mem_cons.mp hx with rfl | hx
        · exact h
        · exact hall x hx
    · exact ⟨[], by simp [prune_old_events, h], by simp⟩

theorem prune_mem (historySec now : Int) (buf : List BuyEventL) (e : BuyEventL)
    (h : e ∈ prune_old_events historySec now buf) : e ∈ buf := by
  obtain ⟨removed, hr, -⟩ := prune_decomp historySec now buf
  rw [hr]
  exact List.mem_append_right _ h

theorem prune_kept (historySec now : Int) (buf : List BuyEventL)
    (hsort : buf.Pairwise tsLE) :
    ∀ e ∈ prune_old_events historySec now buf, now - historySec ≤ e.timestamp := by
  induction buf with
  | nil => intro e he; simp [prune_old_events] at he
  | cons a rest ih =>
    intro e he
    by_cases h : a.timestamp < now - historySec
    · rw [prune_old_events, if_pos h] at he
      exact ih (List.Pairwise.of_cons hsort) e he
    · rw [prune_old_events, if_neg h] at he
      rcases List.mem_cons.mp he with rfl | he
      · omega
      · have := (List.pairwise_cons.mp hsort).1 e he
        unfold tsLE at this
        omega

theorem runOps_sorted_aux (historySec : Int) :
    ∀ (ops : List BufOp) (buf : List BuyEventL),
    buf.Pairwise tsLE → (∀ e ∈ buf, ∀ op ∈ ops, e.timestamp ≤ opTime op) →
    (ops.map opTime).Pairwise (· ≤ ·) →
    (ops.foldl (applyOp historySec) buf).Pairwise tsLE := by
  intro ops
  induction ops with
  | nil => intro buf h _ _; simpa using h
  | cons op rest ih =>
    intro buf hsort hbound hmono
    simp only [List.foldl_cons]
    have h2 : (∀ a ∈ rest, opTime op ≤ opTime a) ∧
        (rest.map opTime).Pairwise (fun a b => a ≤ b) := by simpa using hmono
    have hmono' : ((rest.map opTime)).Pairwise (· ≤ ·) := h2.2
    have hhead : ∀ a ∈ rest, opTime op ≤ opTime a := h2.1
    apply ih
    · cases op with
      | push e =>
        simp only [applyOp]
        rw [List.pairwise_append]
        refine ⟨hsort, by simp, ?_⟩
        intro a ha b hb
        rcases List.mem_singleton.mp hb with rfl
        exact hbound a ha _ (List.mem_cons_self _ _)
      | prune now =>
        simp only [applyOp]
        obtain ⟨removed, hr, -⟩ := prune_decomp historySec now buf
        rw [hr, List.pairwise_append] at hsort
        exact hsort.2.1
    · intro e he op' hop'
      cases op with
      | push e0 =>
        simp only [applyOp] at he
        rcases List.mem_append.mp he with he | he
        · exact hbound e he op' (List.mem_cons_of_mem _ hop')
        · rcases List.mem_singleton.mp he with rfl
          have : opTime (BufOp.push e) ≤ opTime op' := hhead _ hop'
          simpa [opTime] using this
      | prune now =>
        simp only [applyOp] at he
        exact hbound e (prune_mem historySec now buf e he) op'
          (List.mem_cons_of_mem _ hop')
    · exact hmono'

theorem runOps_sorted (historySec : Int) (ops : List BufOp)
    (hmono : (ops.map opTime).Pairwise (· ≤ ·)) :
    (runOps historySec ops).Pairwise tsLE :=
  runOps_sorted_aux historySec ops [] (by simp) (by simp) hmono

end SmartMoney

/-- C6: for any chronologically monotone sequence of pushes and prunes on the
window buffer, pruning at an observation time `now` keeps only events with
`timestamp >= now - H`, removes only events with `timestamp < now - H`, and
removes them as a leading segment of the buffer (the oldest end), leaving the
remainder in order. -/
theorem C6_window_correctness (historySec now : Int)
    (ops : List SmartMoney.BufOp)
    (hmono : ((ops.map SmartMoney.opTime) ++ [now]).Pairwise (· ≤ ·)) :
    (∀ e ∈ SmartMoney.prune_old_events historySec now
        (SmartMoney.runOps historySec ops), now - historySec ≤ e.timestamp) ∧
    (∃ removed, SmartMoney.runOps historySec ops =
        removed ++ SmartMoney.prune_old_events historySec now
          (SmartMoney.runOps historySec ops) ∧
      ∀ e ∈ removed, e.timestamp < now - historySec) := by
  have hm : (ops.map SmartMoney.opTime).Pairwise (· ≤ ·) :=
    (List.pairwise_append.mp hmono).1
  exact ⟨SmartMoney.prune_kept historySec now _
      (SmartMoney.runOps_sorted historySec ops hm),
    SmartMoney.prune_decomp historySec now _⟩

/-- Witness for C6 at a concrete trace: two old pushes, one recent push, then
a prune at time 700 with a 600-second horizon. -/
theorem C6_window_correctness_witness :
    (∀ e ∈ SmartMoney.prune_old_events 600 700
        (SmartMoney.runOps 600
          [SmartMoney.BufOp.push ⟨0, "A", "M", 1, "X"⟩,
           SmartMoney.BufOp.push ⟨50, "B", "M", 1, "X"⟩,
           SmartMoney.BufOp.push ⟨650, "C", "M", 1, "X"⟩]),
      700 - 600 ≤ e.timestamp) ∧
    (∃ removed, SmartMoney.runOps 600
        [SmartMoney.BufOp.push ⟨0, "A", "M", 1, "X"⟩,
         SmartMoney.BufOp.push ⟨50, "B", "M", 1, "X"⟩,
         SmartMoney.BufOp.push ⟨650, "C", "M", 1, "X"⟩] =
        removed ++ SmartMoney.prune_old_events 600 700
          (SmartMoney.runOps 600
            [SmartMoney.BufOp.push ⟨0, "A", "M", 1, "X"⟩,
             SmartMoney.BufOp.push ⟨50, "B", "M", 1, "X"⟩,
             SmartMoney.BufOp.push ⟨650, "C", "M", 1, "X"⟩]) ∧
      ∀ e ∈ removed, e.timestamp < 700 - 600) :=
  C6_window_correctness 600 700
    [SmartMoney.BufOp.push ⟨0, "A", "M", 1, "X"⟩,
     SmartMoney.BufOp.push ⟨50, "B", "M", 1, "X"⟩,
     SmartMoney.BufOp.push ⟨650, "C", "M", 1, "X"⟩] (by decide)

/-- C4: once a group has reached the minimum-sightings threshold, a candidate
holding exactly half of the first-buyer votes is never promoted to an alert
(`votes > total/2` is strict), and the candidate holding a strict majority is
always promoted when the cooldown gate allows it. -/
theorem C4_strict_majority (minS : Nat) (cooldown now : Int)
    (s v : List String) (gate : List (String × Int)) (c : String)
    (hs : minS ≤ s.dedup.length) :
    (2 * v.count c = v.length →
      (SmartMoney.analyze_group minS cooldown now s v gate).2 ≠ some c) ∧
    (v.length < 2 * v.count c →
      SmartMoney.gateAllows cooldown now gate c = true →
      (SmartMoney.analyze_group minS cooldown now s v gate).2 = some c) := by
  constructor
  · intro heq h
    have := SmartMoney.analyze_group_emitted_majority minS cooldown now s v
      gate c h
    omega
  · intro hmaj hgate
    rw [SmartMoney.analyze_group_emit minS cooldown now s v gate c hs hmaj
      hgate]

/-- Witness for C4: with votes `A,A,B,B` the half-vote candidate `B` is not
promoted; with votes `A,A,A,B` the majority candidate `A` is promoted. -/
theorem C4_strict_majority_witness :
    ((SmartMoney.analyze_group 2 300 1000 ["M1", "M2"]
      ["A", "A", "B", "B"] []).2 ≠ some "B") ∧
    ((SmartMoney.analyze_group 2 300 1000 ["M1", "M2"]
      ["A", "A", "A", "B"] []).2 = some "A") :=
  ⟨(C4_strict_majority 2 300 1000 ["M1", "M2"] ["A", "A", "B", "B"] [] "B"
      (by decide)).1 (by decide),
   (C4_strict_majority 2 300 1000 ["M1", "M2"] ["A", "A", "A", "B"] [] "A"
      (by decide)).2 (by decide) (by decide)⟩

/-- C5 counterexample: a qualifying promotion of `W` whose previous alert is
exactly `cooldownPeriod` old (age 300 = cooldown 300, hence not younger than
the cooldown) is still suppressed — the code requires the age to be strictly
greater, so "otherwise emits" fails at the boundary. -/
theorem C5_counterexample :
    ¬(300 - (0 : Int) < 300) ∧
    SmartMoney.analyze_group 2 300 300 ["M1", "M2"] ["W", "W", "W"]
      [("W", 0)] = ([("W", 0)], none) := by
  decide

/-- C5 (amended): an emitted alert stamps the gate with the emission time, and
a second qualifying promotion of the same wallet at most `cooldownPeriod`
later (age <= cooldown, not only age < cooldown) is suppressed, so the two
promotions produce exactly one alert. -/
theorem C5_cooldown_idempotence (minS : Nat) (cooldown t1 t2 : Int)
    (s1 v1 s2 v2 : List String) (gate gate1 : List (String × Int)) (w : String)
    (h1 : SmartMoney.analyze_group minS cooldown t1 s1 v1 gate =
      (gate1, some w))
    (h2 : t2 - t1 ≤ cooldown) :
    alookup w gate1 = some t1 ∧
    (SmartMoney.analyze_group minS cooldown t2 s2 v2 gate1).2 ≠ some w := by
  have hstamp : alookup w gate1 = some t1 := by
    have := SmartMoney.analyze_group_stamp minS cooldown t1 s1 v1 gate w
      (by rw [h1])
    rwa [h1] at this
  exact ⟨hstamp, SmartMoney.analyze_group_suppressed minS cooldown t2 s2 v2
    gate1 w t1 hstamp (by omega)⟩

/-- Witness for C5: a first alert for `W` at time 1000 stamps the gate; a
second qualifying promotion at time 1200 (within the 300-second cooldown) is
suppressed. -/
theorem C5_cooldown_idempotence_witness :
    alookup "W" [("W", (1000 : Int))] = some 1000 ∧
    (SmartMoney.analyze_group 2 300 1200 ["M3", "M4"] ["W"]
      [("W", 1000)]).2 ≠ some "W" :=
  C5_cooldown_idempotence 2 300 1000 1200 ["M1", "M2"] ["W"] ["M3", "M4"]
    ["W"] [] [("W", 1000)] "W" (by decide) (by decide)

namespace SmartMoney

theorem scanMatched_eq_filter (ws : Int) (m b : String) :
    ∀ l : List BuyEventL,
    l.Pairwise (fun a c => c.timestamp ≤ a.timestamp) →
    scanMatched ws m b l =
      (l.filter (fun ev =>
        decide (ws ≤ ev.timestamp ∧ ev.tokenMint = m ∧ ev.buyer ≠ b))).map
        BuyEventL.buyer := by
  intro l
  induction l with
  | nil => intro _; rfl
  | cons ev rest ih =>
    intro hsort
    have hpair := List.pairwise_cons.mp hsort
    by_cases h : ev.timestamp < ws
    · rw [scanMatched, if_pos h]
      have hhead : ¬(ws ≤ ev.timestamp ∧ ev.tokenMint = m ∧ ev.buyer ≠ b) := by
        intro hx
        omega
      have hrest : rest.filter (fun ev =>
          decide (ws ≤ ev.timestamp ∧ ev.tokenMint = m ∧ ev.buyer ≠ b)) = [] := by
        rw [List.filter_eq_nil_iff]
        intro x hx
        have hts := hpair.1 x hx
        simp only [decide_eq_true_eq]
        intro hc
        omega
      rw [List.filter_cons, if_neg (by simpa using hhead), hrest]
      rfl
    · rw [scanMatched, if_neg h]
      by_cases hq : ev.tokenMint = m ∧ ev.buyer ≠ b
      · rw [if_pos hq]
        have hhead : ws ≤ ev.timestamp ∧ ev.tokenMint = m ∧ ev.buyer ≠ b :=
          ⟨by omega, hq.1, hq.2⟩
        rw [List.filter_cons, if_pos (by simpa using hhead), List.map_cons,
          ih hpair.2]
      · rw [if_neg hq]
        have hhead : ¬(ws ≤ ev.timestamp ∧ ev.tokenMint = m ∧ ev.buyer ≠ b) := by
          intro hx
          exact hq ⟨hx.2.1, hx.2.2⟩
        rw [List.filter_cons, if_neg (by simpa using hhead)]
        exact ih hpair.2

end SmartMoney

/-- C1 counterexample: wallet `B` buys mint `M` twice inside the window and
wallet `C` then buys `M`. Only one distinct wallet other than `C` bought `M`
in the window (fewer than `minGroupSize - 1 = 2`), yet the detector forms the
group: the matched list counts buy events with multiplicity, not distinct
wallets. -/
theorem C1_counterexample :
    ((SmartMoney.processTrace 30 3 2 300 600
        [⟨0, "B", "M", 1, "X"⟩, ⟨1, "B", "M", 2, "X"⟩, ⟨2, "C", "M", 3, "X"⟩]
        SmartMoney.initState).1.groupSightings
      = [(({"B", "C"} : Finset String), ["M"])]) ∧
    ((((SmartMoney.processTrace 30 3 2 300 600
        [⟨0, "B", "M", 1, "X"⟩, ⟨1, "B", "M", 2, "X"⟩]
        SmartMoney.initState).1.recentBuys.filter
        (SmartMoney.qualBuy (2 - 30) 2 "M" "C")).map
        SmartMoney.BuyEventL.buyer).dedup.length = 1) := by
  decide

/-- C1 (amended): on a time-ordered buffer whose events are not in the future,
`find_groups` forms a group exactly when the number of qualifying buy events —
same mint, other wallet, inside the trailing window, counted with multiplicity
rather than per distinct wallet — is at least `minGroupSize - 1`; buys on a
different token mint are never counted. -/
theorem C1_group_formation (window : Int) (mgs minS : Nat)
    (cooldown now : Int) (e : SmartMoney.BuyEventL)
    (st : SmartMoney.DetectorState)
    (hsort : st.recentBuys.Pairwise SmartMoney.tsLE)
    (hub : ∀ ev ∈ st.recentBuys, ev.timestamp ≤ now) :
    ((SmartMoney.find_groups window mgs minS cooldown now e st).2.1.isSome ↔
      mgs - 1 ≤ (st.recentBuys.filter
        (SmartMoney.qualBuy (now - window) now e.tokenMint e.buyer)).length) := by
  have hrev : st.recentBuys.reverse.Pairwise
      (fun a c => c.timestamp ≤ a.timestamp) :=
    List.pairwise_reverse.mpr hsort
  have hscan := SmartMoney.scanMatched_eq_filter (now - window) e.tokenMint
    e.buyer st.recentBuys.reverse hrev
  have hlen : (SmartMoney.scanMatched (now - window) e.tokenMint e.buyer
      st.recentBuys.reverse).length =
      (st.recentBuys.filter (SmartMoney.qualBuy (now - window) now
        e.tokenMint e.buyer)).length := by
    rw [hscan, List.length_map, List.filter_reverse, List.length_reverse]
    rw [List.filter_congr]
    intro x hx
    simp only [SmartMoney.qualBuy, decide_eq_decide]
    constructor
    · rintro ⟨h1, h2, h3⟩
      exact ⟨h1, hub x hx, h2, h3⟩
    · rintro ⟨h1, _, h2, h3⟩
      exact ⟨h1, h2, h3⟩
  rw [← hlen]
  by_cases hc : mgs - 1 ≤ (SmartMoney.scanMatched (now - window) e.tokenMint
      e.buyer st.recentBuys.reverse).length
  · simp only [SmartMoney.find_groups, hc, if_true]
    simp [hc]
  · simp only [SmartMoney.find_groups, hc, if_false]
    simp [hc]

/-- Witness for C1 at the spec scenario buffer: `A` and `B` bought `MintX`
within the window before `C`'s buy, so the group condition and the count
condition hold together. -/
theorem C1_group_formation_witness :
    ((SmartMoney.find_groups 30 3 2 300 8 ⟨8, "C", "MintX", 1, "PumpFun"⟩
      ⟨[⟨0, "A", "MintX", 1, "PumpFun"⟩, ⟨5, "B", "MintX", 1, "PumpFun"⟩],
        [], [], []⟩).2.1.isSome ↔
      3 - 1 ≤ ([⟨0, "A", "MintX", 1, "PumpFun"⟩,
        ⟨5, "B", "MintX", 1, "PumpFun"⟩].filter
        (SmartMoney.qualBuy (8 - 30) 8 "MintX" "C")).length) :=
  C1_group_formation 30 3 2 300 8 ⟨8, "C", "MintX", 1, "PumpFun"⟩
    ⟨[⟨0, "A", "MintX", 1, "PumpFun"⟩, ⟨5, "B", "MintX", 1, "PumpFun"⟩],
      [], [], []⟩ (by decide) (by decide)

/-- C10: on the spec scenario `A@t0, B@t0+5, C@t0+8` (here `t0 = 0`) buying
`MintX` with `minGroupSize = 3` and a 30-second window, no group exists after
the first two events, the group forms on `C`'s arrival as `{A, B, C}`, and the
recorded first-buyer vote for the sighting is the triggering wallet `C`, not
the chronologically earliest buyer `A`. -/
theorem C10_scenario :
    ((SmartMoney.processTrace 30 3 2 300 600
        [⟨0, "A", "MintX", 1, "PumpFun"⟩, ⟨5, "B", "MintX", 1, "PumpFun"⟩]
        SmartMoney.initState).1.groupSightings = []) ∧
    ((SmartMoney.processTrace 30 3 2 300 600
        [⟨0, "A", "MintX", 1, "PumpFun"⟩, ⟨5, "B", "MintX", 1, "PumpFun"⟩,
         ⟨8, "C", "MintX", 1, "PumpFun"⟩]
        SmartMoney.initState).1.groupSightings
      = [(({"A", "B", "C"} : Finset String), ["MintX"])]) ∧
    ((SmartMoney.processTrace 30 3 2 300 600
        [⟨0, "A", "MintX", 1, "PumpFun"⟩, ⟨5, "B", "MintX", 1, "PumpFun"⟩,
         ⟨8, "C", "MintX", 1, "PumpFun"⟩]
        SmartMoney.initState).1.groupFirstBuyer
      = [(({"A", "B", "C"} : Finset String), ["C"])]) := by
  decide

namespace Strat2

theorem fetch_failed_zero (r : FetchResult) (h : fetchFailed r = true) :
    fetch_market_cap r = 0 := by
  cases r with
  | exn => rfl
  | resp status pairs =>
    cases pairs with
    | nil => rfl
    | cons p ps =>
      cases p with
      | none => rfl
      | some f =>
        rw [fetchFailed] at h
        rw [fetch_market_cap, if_pos (by simpa using h)]

end Strat2

/-- C2 counterexample: the market-cap fetch fails (network exception), the
fetch degrades to 0, and `0 <= MARKET_CAP_THRESHOLD` passes the filter, so
the fast-sell detection still emits an alert: the filter fails open, not
closed. -/
theorem C2_counterexample :
    (Strat2.processTraceS2 (fun _ => Strat2.FetchResult.exn) 600 30 500000
      [⟨0, "W", "M", 5, false⟩, ⟨10, "W", "M", 5, true⟩]
      Strat2.initS2).2 = [("W", "M")] := by
  decide

/-- C2 (amended): when the market-cap fetch fails, the detector treats the
cap as 0, which always passes the `cap <= threshold` filter, so a qualifying
fast buy-then-sell detection still emits its alert (the filter fails open);
the failure itself is absorbed (the fetch totally returns 0, never a crash of
event processing). -/
theorem C2_market_cap_fails_open :
    (∀ r : Strat2.FetchResult, Strat2.fetchFailed r = true →
      Strat2.fetch_market_cap r = 0 ∧
      Strat2.fetch_market_cap r ≤ Strat2.MARKET_CAP_THRESHOLD) ∧
    (∀ (fetch : String → Strat2.FetchResult) (w m : String) (a1 a2 t1 t2 : Int),
      0 < t2 - t1 → t2 - t1 ≤ Strat2.TIME_WINDOW_SECONDS →
      Strat2.fetchFailed (fetch m) = true →
      (Strat2.analyze_fast_traders fetch Strat2.TIME_WINDOW_SECONDS
        Strat2.MARKET_CAP_THRESHOLD ⟨t2, w, m, a2, true⟩
        [⟨t1, w, m, a1, false⟩, ⟨t2, w, m, a2, true⟩] []).1 = some (w, m)) := by
  constructor
  · intro r h
    refine ⟨Strat2.fetch_failed_zero r h, ?_⟩
    rw [Strat2.fetch_failed_zero r h]
    rw [Strat2.MARKET_CAP_THRESHOLD]
    norm_num
  · intro fetch w m a1 a2 t1 t2 h1 h2 hf
    have hz := Strat2.fetch_failed_zero (fetch m) hf
    rw [Strat2.analyze_fast_traders]
    simp only [List.filter_cons, List.filter_nil, decide_eq_true_eq]
    norm_num
    rw [Strat2.fastLoop]
    norm_num
    simp only [Strat2.TIME_WINDOW_SECONDS] at h2 ⊢
    rw [if_pos (by omega : t1 < t2 ∧ t2 ≤ 30 + t1)]
    simp only [alookup, Option.getD_none, if_pos rfl, hz]
    rw [Strat2.MARKET_CAP_THRESHOLD]
    norm_num

/-- Witness for C2: an exception outcome yields cap 0 passing the threshold,
and a concrete qualifying round trip with a failing fetch emits the alert. -/
theorem C2_market_cap_fails_open_witness :
    (Strat2.fetch_market_cap Strat2.FetchResult.exn = 0 ∧
      Strat2.fetch_market_cap Strat2.FetchResult.exn ≤
        Strat2.MARKET_CAP_THRESHOLD) ∧
    (Strat2.analyze_fast_traders (fun _ => Strat2.FetchResult.exn)
      Strat2.TIME_WINDOW_SECONDS Strat2.MARKET_CAP_THRESHOLD
      ⟨10, "W", "M", 5, true⟩
      [⟨0, "W", "M", 5, false⟩, ⟨10, "W", "M", 5, true⟩] []).1 =
      some ("W", "M") :=
  ⟨C2_market_cap_fails_open.1 Strat2.FetchResult.exn (by decide),
   C2_market_cap_fails_open.2 (fun _ => Strat2.FetchResult.exn) "W" "M" 5 5 0
     10 (by decide) (by decide) (by decide)⟩

/-- C9 counterexample: wallet `W` makes two qualifying fast round trips on
mint `M` (buy@0/sell@5 and buy@12/sell@18, cap 100 under the threshold); the
fast-sell detector emits an alert for both sells — it has no repeat-alert
suppression. -/
theorem C9_counterexample :
    (Strat2.processTraceS2 (fun _ => Strat2.FetchResult.resp 200 [some 100])
      600 30 500000
      [⟨0, "W", "M", 5, false⟩, ⟨5, "W", "M", 5, true⟩,
       ⟨12, "W", "M", 5, false⟩, ⟨18, "W", "M", 5, true⟩]
      Strat2.initS2).2 = [("W", "M"), ("W", "M")] := by
  decide

/-- C9 (amended): the streaming fast-sell detector applies no repeat-alert
suppression: for any market cap passing the threshold, two qualifying
buy-then-sell round trips by the same wallet in close succession each emit
their own alert (two alerts, not one). -/
theorem C9_no_suppression (cap : ℚ) (h1 : 0 < cap) (h2 : cap ≤ 500000) :
    (Strat2.processTraceS2 (fun _ => Strat2.FetchResult.resp 200 [some cap])
      600 30 500000
      [⟨0, "W", "M", 5, false⟩, ⟨5, "W", "M", 5, true⟩,
       ⟨12, "W", "M", 5, false⟩, ⟨18, "W", "M", 5, true⟩]
      Strat2.initS2).2 = [("W", "M"), ("W", "M")] := by
  have hne : cap ≠ 0 := ne_of_gt h1
  simp [Strat2.processTraceS2, Strat2.processEventS2, Strat2.initS2,
    Strat2.analyze_fast_traders, Strat2.fastLoop, Strat2.prune_old_events,
    Strat2.fetch_market_cap, aupdate, alookup, aset, hne, h2]

/-- Witness for C9 at cap 250000. -/
theorem C9_no_suppression_witness :
    (Strat2.processTraceS2
      (fun _ => Strat2.FetchResult.resp 200 [some 250000]) 600 30 500000
      [⟨0, "W", "M", 5, false⟩, ⟨5, "W", "M", 5, true⟩,
       ⟨12, "W", "M", 5, false⟩, ⟨18, "W", "M", 5, true⟩]
      Strat2.initS2).2 = [("W", "M"), ("W", "M")] :=
  C9_no_suppression 250000 (by norm_num) (by norm_num)

namespace KillFollow

theorem flagCount_le_buys (maxHold : Int) :
    ∀ acts : List (Int × Bool),
    flagCount maxHold acts ≤ (acts.filter (fun a => !a.2)).length := by
  intro acts
  induction acts with
  | nil => simp [flagCount]
  | cons a rest ih =>
    obtain ⟨ts, isS⟩ := a
    rw [flagCount]
    cases isS
    · simp only [List.filter_cons]
      by_cases hscan : scanSellFrom maxHold ts rest = true
      · simp [hscan]
        omega
      · simp [hscan]
        omega
    · simp only [List.filter_cons]
      simp
      omega

theorem result_mem_aux (f : String → List String) (tr : String) :
    ∀ trs : List String,
    (∃ toks, (tr, toks) ∈ trs.foldr (fun t acc =>
      if 2 ≤ (f t).length then (t, f t) :: acc else acc) []) ↔
    (tr ∈ trs ∧ 2 ≤ (f tr).length) := by
  intro trs
  induction trs with
  | nil => simp
  | cons t rest ih =>
    rw [List.foldr_cons]
    by_cases hc : 2 ≤ (f t).length
    · rw [if_pos hc]
      constructor
      · rintro ⟨toks, htoks⟩
        rcases List.mem_cons.mp htoks with heq | hmem
        · have h1 : tr = t := congrArg Prod.fst heq
          subst h1
          exact ⟨List.mem_cons_self _ _, hc⟩
        · obtain ⟨htr, hlen⟩ := ih.mp ⟨toks, hmem⟩
          exact ⟨List.mem_cons_of_mem _ htr, hlen⟩
      · rintro ⟨htr, hlen⟩
        rcases List.mem_cons.mp htr with rfl | htr
        · exact ⟨f tr, List.mem_cons_self _ _⟩
        · obtain ⟨toks, hmem⟩ := ih.mpr ⟨htr, hlen⟩
          exact ⟨toks, List.mem_cons_of_mem _ hmem⟩
    · rw [if_neg hc]
      constructor
      · rintro ⟨toks, hmem⟩
        obtain ⟨htr, hlen⟩ := ih.mp ⟨toks, hmem⟩
        exact ⟨List.mem_cons_of_mem _ htr, hlen⟩
      · rintro ⟨htr, hlen⟩
        rcases List.mem_cons.mp htr with rfl | htr
        · exact absurd hlen hc
        · exact ih.mpr ⟨htr, hlen⟩

theorem pair_flag_iff (maxHold t0 k : Int) (tr m : String) (c1 c2 : Int) :
    m ∈ suspiciousFor maxHold
      [⟨t0, m, tr, false, c1⟩, ⟨t0 + k, m, tr, true, c2⟩] tr ↔
      (0 < k ∧ k ≤ maxHold) := by
  have hmints : mintsFor
      [⟨t0, m, tr, false, c1⟩, ⟨t0 + k, m, tr, true, c2⟩] tr = [m] := by
    simp [mintsFor]
  have hrows : rowsFor
      [⟨t0, m, tr, false, c1⟩, ⟨t0 + k, m, tr, true, c2⟩] tr m =
      [(t0, false), (t0 + k, true)] := by
    simp [rowsFor]
  rw [suspiciousFor, hmints]
  simp only [List.map_cons, List.map_nil, List.flatten, List.append_nil,
    List.mem_replicate]
  rw [hrows]
  rcases lt_trichotomy k 0 with hk | hk | hk
  · have hsort : sortActs [(t0, false), (t0 + k, true)] =
        [(t0 + k, true), (t0, false)] := by
      simp [sortActs, insertAct, actLE, show ¬t0 < t0 + k by omega,
        show ¬t0 = t0 + k by omega]
    rw [hsort]
    simp [flagCount, scanSellFrom]
    omega
  · subst hk
    have hsort : sortActs [(t0, false), (t0 + 0, true)] =
        [(t0, false), (t0 + 0, true)] := by
      simp [sortActs, insertAct, actLE]
    rw [hsort]
    simp [flagCount, scanSellFrom]
  · have hsort : sortActs [(t0, false), (t0 + k, true)] =
        [(t0, false), (t0 + k, true)] := by
      simp [sortActs, insertAct, actLE, show t0 < t0 + k by omega]
    rw [hsort]
    by_cases hq : k ≤ maxHold
    · simp [flagCount, scanSellFrom, show (0 : Int) < t0 + k - t0 by omega,
        show t0 + k - t0 ≤ maxHold by omega]
    · simp [flagCount, scanSellFrom, show ¬t0 + k - t0 ≤ maxHold by omega]

end KillFollow

/-- C3: in the kill-follow detector, (i) a wallet's buy at `t0` with a sell at
`t0 + k` on the same token is flagged iff `0 < k <= maxHoldTime`; (ii) each
buy contributes at most one flag (only the first qualifying sell is counted);
(iii) a wallet appears in the returned result iff it is among the scanned
traders and exhibits the round-trip pattern on at least 2 distinct token
mints. -/
theorem C3_round_trip (maxHold : Int) :
    (∀ (t0 k : Int) (tr m : String) (c1 c2 : Int),
      m ∈ KillFollow.suspiciousFor maxHold
        [⟨t0, m, tr, false, c1⟩, ⟨t0 + k, m, tr, true, c2⟩] tr ↔
        (0 < k ∧ k ≤ maxHold)) ∧
    (∀ acts : List (Int × Bool),
      KillFollow.flagCount maxHold acts ≤
        (acts.filter (fun a => !a.2)).length) ∧
    (∀ (rows : List KillFollow.KRow) (tr : String),
      (∃ toks, (tr, toks) ∈ KillFollow.detect_leader maxHold rows) ↔
        (tr ∈ KillFollow.tradersOf rows ∧
          2 ≤ ((KillFollow.suspiciousFor maxHold rows tr).dedup).length)) := by
  refine ⟨fun t0 k tr m c1 c2 =>
      KillFollow.pair_flag_iff maxHold t0 k tr m c1 c2,
    KillFollow.flagCount_le_buys maxHold, fun rows tr => ?_⟩
  rw [KillFollow.detect_leader]
  exact KillFollow.result_mem_aux
    (fun t => (KillFollow.suspiciousFor maxHold rows t).dedup) tr
    (KillFollow.tradersOf rows)

namespace SeqStrat

theorem clusterFrom_eq_filter (w ts1 a1 : Int) :
    ∀ l : List SEv, l.Pairwise sevTsLE →
    clusterFrom w ts1 a1 l =
      l.filter (fun e => decide (e.ts - ts1 ≤ w ∧ a1 ≠ e.amount)) := by
  intro l
  induction l with
  | nil => intro _; rfl
  | cons e rest ih =>
    intro hsort
    have hpair := List.pairwise_cons.mp hsort
    by_cases h : e.ts - ts1 ≤ w
    · rw [clusterFrom, if_pos h]
      by_cases ha : a1 ≠ e.amount
      · rw [if_pos ha, List.filter_cons,
          if_pos (by simpa using And.intro h ha), List.singleton_append,
          ih hpair.2]
      · rw [if_neg ha, List.filter_cons,
          if_neg (by simpa using fun hc : _ ∧ _ => ha hc.2),
          List.nil_append, ih hpair.2]
    · rw [clusterFrom, if_neg h]
      have hrest : rest.filter
          (fun e => decide (e.ts - ts1 ≤ w ∧ a1 ≠ e.amount)) = [] := by
        rw [List.filter_eq_nil_iff]
        intro x hx
        have hts := hpair.1 x hx
        unfold sevTsLE at hts
        simp only [decide_eq_true_eq]
        intro hc
        omega
      rw [List.filter_cons,
        if_neg (by simp only [decide_eq_true_eq]; intro hc; exact h hc.1),
        hrest]

theorem clustersOfEvents_length (w : Int) :
    ∀ l : List SEv, (clustersOfEvents w l).length = l.length := by
  intro l
  induction l with
  | nil => rfl
  | cons e rest ih => simp [clustersOfEvents, ih]

theorem clustersOfEvents_get (w : Int) :
    ∀ (l : List SEv) (i : Nat) (h : i < l.length)
      (h2 : i < (clustersOfEvents w l).length),
    (clustersOfEvents w l).get ⟨i, h2⟩ =
      l.get ⟨i, h⟩ :: clusterFrom w (l.get ⟨i, h⟩).ts (l.get ⟨i, h⟩).amount
        (l.drop (i + 1)) := by
  intro l
  induction l with
  | nil => intro i h _; simp at h
  | cons e rest ih =>
    intro i h h2
    cases i with
    | zero => rfl
    | succ n =>
      exact ih n (Nat.lt_of_succ_lt_succ h)
        (by simpa [clustersOfEvents] using h2)

end SeqStrat

namespace SeqStrat

theorem find_clusters_step_inv (m : String) :
    ∀ (cls : List (List SEv)) (tk : List (List String × List (String × List SEv))),
    (∀ p ∈ tk, ∀ mc ∈ p.2, 3 ≤ (mc : String × List SEv).2.length ∧
      p.1 = sortStrings (mc.2.map SEv.trader)) →
    (∀ p ∈ cls.foldl (fun tk cl =>
        if 3 ≤ cl.length then
          aupdate (sortStrings (cl.map SEv.trader)) (fun l => l ++ [(m, cl)])
            [] tk
        else tk) tk,
      ∀ mc ∈ p.2, 3 ≤ (mc : String × List SEv).2.length ∧
        p.1 = sortStrings (mc.2.map SEv.trader)) := by
  intro cls
  induction cls with
  | nil => intro tk h; exact h
  | cons cl rest ih =>
    intro tk h
    rw [List.foldl_cons]
    apply ih
    by_cases hc : 3 ≤ cl.length
    · rw [if_pos hc]
      intro p hp mc hmc
      rcases aupdate_mem _ _ _ _ p hp with hp2 | ⟨b, rfl, hb⟩
      · exact h p hp2 mc hmc
      · rcases hb with rfl | hb
        · have : mc = (m, cl) := by simpa using hmc
          subst this
          exact ⟨hc, rfl⟩
        · rcases List.mem_append.mp hmc with hmc2 | hmc2
          · exact h _ hb mc hmc2
          · rcases List.mem_singleton.mp hmc2 with rfl
            exact ⟨hc, rfl⟩
    · rw [if_neg hc]
      exact h

theorem find_clusters_inv (w : Int) (rows : List SRow) :
    ∀ p ∈ find_clusters w rows, ∀ mc ∈ p.2,
      3 ≤ (mc : String × List SEv).2.length ∧
      p.1 = sortStrings (mc.2.map SEv.trader) := by
  rw [find_clusters]
  suffices hgen : ∀ (ms : List String)
      (tk : List (List String × List (String × List SEv))),
      (∀ p ∈ tk, ∀ mc ∈ p.2, 3 ≤ (mc : String × List SEv).2.length ∧
        p.1 = sortStrings (mc.2.map SEv.trader)) →
      (∀ p ∈ ms.foldl (fun tracker m =>
          (clustersOfEvents w (sortSEvs (eventsForMint rows m))).foldl
            (fun tk cl =>
              if 3 ≤ cl.length then
                aupdate (sortStrings (cl.map SEv.trader))
                  (fun l => l ++ [(m, cl)]) [] tk
              else tk) tracker) tk,
        ∀ mc ∈ p.2, 3 ≤ (mc : String × List SEv).2.length ∧
          p.1 = sortStrings (mc.2.map SEv.trader)) by
    exact hgen (mintsOf rows) [] (by simp)
  intro ms
  induction ms with
  | nil => intro tk h; exact h
  | cons m rest ih =>
    intro tk h
    rw [List.foldl_cons]
    exact ih _ (find_clusters_step_inv m _ tk h)

theorem find_clusters_step_nodup (m : String) :
    ∀ (cls : List (List SEv)) (tk : List (List String × List (String × List SEv))),
    (tk.map Prod.fst).Nodup →
    ((cls.foldl (fun tk cl =>
        if 3 ≤ cl.length then
          aupdate (sortStrings (cl.map SEv.trader)) (fun l => l ++ [(m, cl)])
            [] tk
        else tk) tk).map Prod.fst).Nodup := by
  intro cls
  induction cls with
  | nil => intro tk h; exact h
  | cons cl rest ih =>
    intro tk h
    rw [List.foldl_cons]
    apply ih
    by_cases hc : 3 ≤ cl.length
    · rw [if_pos hc]
      exact keys_aupdate_nodup _ _ _ _ h
    · rw [if_neg hc]
      exact h

theorem find_clusters_keys_nodup (w : Int) (rows : List SRow) :
    ((find_clusters w rows).map Prod.fst).Nodup := by
  rw [find_clusters]
  suffices hgen : ∀ (ms : List String)
      (tk : List (List String × List (String × List SEv))),
      (tk.map Prod.fst).Nodup →
      ((ms.foldl (fun tracker m =>
          (clustersOfEvents w (sortSEvs (eventsForMint rows m))).foldl
            (fun tk cl =>
              if 3 ≤ cl.length then
                aupdate (sortStrings (cl.map SEv.trader))
                  (fun l => l ++ [(m, cl)]) [] tk
              else tk) tracker) tk).map Prod.fst).Nodup by
    exact hgen (mintsOf rows) [] (by simp)
  intro ms
  induction ms with
  | nil => intro tk h; exact h
  | cons m rest ih =>
    intro tk h
    rw [List.foldl_cons]
    exact ih _ (find_clusters_step_nodup m _ tk h)

end SeqStrat

/-- C7 counterexample: with buys `(0,W,1), (1,W,2), (2,M→X,3)` on one mint,
the cluster seeded at index 0 is retained with wallet `W` occurring twice:
the code never checks wallet distinctness, so "all wallets are distinct"
fails, and the key is the sorted tuple of wallet occurrences with
multiplicity. -/
theorem C7_counterexample :
    (SeqStrat.find_clusters 10
      [⟨0, "M", "W", 1⟩, ⟨1, "M", "W", 2⟩, ⟨2, "M", "X", 3⟩] =
      [(["W", "W", "X"],
        [("M", [⟨0, "W", 1⟩, ⟨1, "W", 2⟩, ⟨2, "X", 3⟩])])]) ∧
    ¬(([⟨0, "W", 1⟩, ⟨1, "W", 2⟩, ⟨2, "X", 3⟩] : List SeqStrat.SEv).map
        SeqStrat.SEv.trader).Nodup := by
  decide

/-- C7 (amended): for a time-sorted per-mint event list, the cluster seeded at
index `i` is the seed plus exactly the subsequent events within `timeWindow`
of the seed's timestamp whose amount differs from the seed's amount; every
cluster retained in the tracker has at least 3 members and is keyed by the
sorted tuple of its participant wallet occurrences (wallets may repeat — the
code does not enforce distinctness). -/
theorem C7_cluster_formation (w : Int) :
    (∀ (l : List SeqStrat.SEv), l.Pairwise SeqStrat.sevTsLE →
      ∀ (i : Nat) (h : i < l.length),
      (SeqStrat.clustersOfEvents w l).get
          ⟨i, by rw [SeqStrat.clustersOfEvents_length]; exact h⟩ =
        l.get ⟨i, h⟩ :: ((l.drop (i + 1)).filter (fun e =>
          decide (e.ts - (l.get ⟨i, h⟩).ts ≤ w ∧
            (l.get ⟨i, h⟩).amount ≠ e.amount)))) ∧
    (∀ (rows : List SeqStrat.SRow)
      (p : List String × List (String × List SeqStrat.SEv)),
      p ∈ SeqStrat.find_clusters w rows → ∀ mc ∈ p.2,
        3 ≤ (mc : String × List SeqStrat.SEv).2.length ∧
        p.1 = SeqStrat.sortStrings (mc.2.map SeqStrat.SEv.trader)) := by
  constructor
  · intro l hsort i h
    rw [SeqStrat.clustersOfEvents_get w l i h]
    congr 1
    exact SeqStrat.clusterFrom_eq_filter w _ _ _
      (List.Pairwise.sublist (List.drop_sublist _ _) hsort)
  · exact fun rows p => SeqStrat.find_clusters_inv w rows p

/-- Witness for C7: the seeded cluster of the sorted three-event list and the
invariant at the concrete tracker entry with wallets `W, W, X`. -/
theorem C7_cluster_formation_witness :
    ((SeqStrat.clustersOfEvents 10
        [⟨0, "W", 1⟩, ⟨1, "W", 2⟩, ⟨2, "X", 3⟩]).get ⟨0, by decide⟩ =
      (([⟨0, "W", 1⟩, ⟨1, "W", 2⟩, ⟨2, "X", 3⟩] : List SeqStrat.SEv).get
          ⟨0, by decide⟩) ::
        ((([⟨0, "W", 1⟩, ⟨1, "W", 2⟩, ⟨2, "X", 3⟩] :
            List SeqStrat.SEv).drop 1).filter (fun e =>
          decide (e.ts - (([⟨0, "W", 1⟩, ⟨1, "W", 2⟩, ⟨2, "X", 3⟩] :
              List SeqStrat.SEv).get ⟨0, by decide⟩).ts ≤ 10 ∧
            (([⟨0, "W", 1⟩, ⟨1, "W", 2⟩, ⟨2, "X", 3⟩] :
              List SeqStrat.SEv).get ⟨0, by decide⟩).amount ≠ e.amount)))) ∧
    (3 ≤ ([⟨0, "W", 1⟩, ⟨1, "W", 2⟩, ⟨2, "X", 3⟩] :
        List SeqStrat.SEv).length ∧
      ["W", "W", "X"] = SeqStrat.sortStrings
        (([⟨0, "W", 1⟩, ⟨1, "W", 2⟩, ⟨2, "X", 3⟩] :
          List SeqStrat.SEv).map SeqStrat.SEv.trader)) :=
  ⟨(C7_cluster_formation 10).1 [⟨0, "W", 1⟩, ⟨1, "W", 2⟩, ⟨2, "X", 3⟩]
      (by decide) 0 (by decide),
   (C7_cluster_formation 10).2
      [⟨0, "M", "W", 1⟩, ⟨1, "M", "W", 2⟩, ⟨2, "M", "X", 3⟩]
      (["W", "W", "X"], [("M", [⟨0, "W", 1⟩, ⟨1, "W", 2⟩, ⟨2, "X", 3⟩])])
      (by decide) ("M", [⟨0, "W", 1⟩, ⟨1, "W", 2⟩, ⟨2, "X", 3⟩]) (by decide)⟩

namespace SeqStrat

theorem dfp_foldl_aux :
    ∀ (tracker : List (List String × List (String × List SEv)))
      (acc : List (String × (List String × List String × List (List String)))),
    tracker.foldl (fun acc entry =>
      if entry.2.length < 2 then acc
      else
        let seqs := entry.2.map (fun x => seqOf x.2)
        if 1 < seqs.dedup.length then
          acc ++ [(mostCommonFirst seqs, (entry.2.map Prod.fst, entry.1, seqs))]
        else acc) acc = acc ++ (tracker.map contribOf).flatten := by
  intro tracker
  induction tracker with
  | nil => intro acc; simp
  | cons entry rest ih =>
    intro acc
    rw [List.foldl_cons, ih, List.map_cons, List.flatten_cons]
    have hstep : (if entry.2.length < 2 then acc
        else
          let seqs := entry.2.map (fun x => seqOf x.2)
          if 1 < seqs.dedup.length then
            acc ++ [(mostCommonFirst seqs,
              (entry.2.map Prod.fst, entry.1, seqs))]
          else acc) = acc ++ contribOf entry := by
      rw [contribOf]
      by_cases h1 : entry.2.length < 2
      · rw [if_pos h1, if_pos h1, List.append_nil]
      · rw [if_neg h1, if_neg h1]
        by_cases h2 : 1 < ((entry.2.map (fun x => seqOf x.2)).dedup).length
        · rw [if_pos h2, if_pos h2]
        · rw [if_neg h2, if_neg h2, List.append_nil]
    rw [hstep, List.append_assoc]

theorem dfp_eq_flatten
    (tracker : List (List String × List (String × List SEv))) :
    detect_following_patterns tracker = (tracker.map contribOf).flatten := by
  rw [detect_following_patterns, dfp_foldl_aux tracker [], List.nil_append]

theorem contribOf_participants
    (entry : List String × List (String × List SEv))
    (x : String × (List String × List String × List (List String)))
    (hx : x ∈ contribOf entry) : x.2.2.1 = entry.1 := by
  rw [contribOf] at hx
  by_cases h1 : entry.2.length < 2
  · rw [if_pos h1] at hx
    simp at hx
  · rw [if_neg h1] at hx
    by_cases h2 : 1 < ((entry.2.map (fun x => seqOf x.2)).dedup).length
    · rw [if_pos h2] at hx
      rcases List.mem_singleton.mp hx with rfl
      rfl
    · rw [if_neg h2] at hx
      simp at hx

theorem dfp_filter
    (tracker : List (List String × List (String × List SEv)))
    (hnd : (tracker.map Prod.fst).Nodup) (combo : List String)
    (mcs : List (String × List SEv)) (hmem : (combo, mcs) ∈ tracker) :
    (detect_following_patterns tracker).filter
      (fun c => decide (c.2.2.1 = combo)) = contribOf (combo, mcs) := by
  rw [dfp_eq_flatten]
  induction tracker with
  | nil => simp at hmem
  | cons entry rest ih =>
    rw [List.map_cons, List.nodup_cons] at hnd
    rw [List.map_cons, List.flatten_cons, List.filter_append]
    rcases List.mem_cons.mp hmem with heq | hmem2
    · obtain rfl : entry = (combo, mcs) := heq.symm
      have hself : (contribOf (combo, mcs)).filter
          (fun c => decide (c.2.2.1 = combo)) = contribOf (combo, mcs) := by
        rw [List.filter_eq_self]
        intro x hx
        simpa using contribOf_participants (combo, mcs) x hx
      have hrest : ((rest.map contribOf).flatten).filter
          (fun c => decide (c.2.2.1 = combo)) = [] := by
        rw [List.filter_eq_nil_iff]
        intro x hx
        obtain ⟨l, hl, hxl⟩ := List.mem_flatten.mp hx
        obtain ⟨e2, he2, rfl⟩ := List.mem_map.mp hl
        have hp := contribOf_participants e2 x hxl
        simp only [decide_eq_true_eq]
        rw [hp]
        intro hcon
        exact hnd.1 (by rw [← hcon]; exact List.mem_map.mpr ⟨e2, he2, rfl⟩)
      rw [hself, hrest, List.append_nil]
    · have hne : entry.1 ≠ combo := by
        intro hcon
        exact hnd.1 (by rw [hcon]
                        exact List.mem_map.mpr ⟨(combo, mcs), hmem2, rfl⟩)
      have hhead : (contribOf entry).filter
          (fun c => decide (c.2.2.1 = combo)) = [] := by
        rw [List.filter_eq_nil_iff]
        intro x hx
        have hp := contribOf_participants entry x hx
        simp only [decide_eq_true_eq]
        rw [hp]
        exact hne
      rw [hhead, List.nil_append]
      exact ih hnd.2 hmem2

end SeqStrat

/-- C8: for a participant-key of the cluster tracker with at least 2
associated token-clusters whose wallet sequences are not all identical, the
sequence detector outputs exactly one leadership candidate carrying that key —
the most common first-position wallet across the sequences — with the mints,
participants and sequences as evidence; a key with fewer than 2 clusters, or
with all-identical sequences, contributes no candidate. -/
theorem C8_following_patterns (w : Int) (rows : List SeqStrat.SRow)
    (combo : List String) (mcs : List (String × List SeqStrat.SEv))
    (hmem : (combo, mcs) ∈ SeqStrat.find_clusters w rows) :
    (2 ≤ mcs.length →
      1 < ((mcs.map (fun x => SeqStrat.seqOf x.2)).dedup).length →
      (SeqStrat.detect_leader w rows).filter
          (fun c => decide (c.2.2.1 = combo)) =
        [(SeqStrat.mostCommonFirst (mcs.map (fun x => SeqStrat.seqOf x.2)),
          (mcs.map Prod.fst, combo,
            mcs.map (fun x => SeqStrat.seqOf x.2)))]) ∧
    (mcs.length < 2 ∨
        ((mcs.map (fun x => SeqStrat.seqOf x.2)).dedup).length ≤ 1 →
      (SeqStrat.detect_leader w rows).filter
          (fun c => decide (c.2.2.1 = combo)) = []) := by
  have hfilter := SeqStrat.dfp_filter (SeqStrat.find_clusters w rows)
    (SeqStrat.find_clusters_keys_nodup w rows) combo mcs hmem
  have hcon : SeqStrat.contribOf (combo, mcs) =
      (if mcs.length < 2 then []
       else if 1 < ((mcs.map (fun x => SeqStrat.seqOf x.2)).dedup).length then
        [(SeqStrat.mostCommonFirst (mcs.map (fun x => SeqStrat.seqOf x.2)),
          (mcs.map Prod.fst, combo, mcs.map (fun x => SeqStrat.seqOf x.2)))]
       else []) := rfl
  rw [SeqStrat.detect_leader]
  constructor
  · intro h1 h2
    rw [hfilter, hcon, if_neg (by omega), if_pos h2]
  · intro hor
    rw [hfilter, hcon]
    rcases hor with h1 | h2
    · rw [if_pos h1]
    · by_cases hlen : mcs.length < 2
      · rw [if_pos hlen]
      · rw [if_neg hlen, if_neg (by omega)]

/-- Witness for C8: two token clusters with the same participants `A,B,C`
but different orders elect `A` (the most common first wallet, tie broken by
first encounter) with the mint list, participants and sequences as
evidence. -/
theorem C8_following_patterns_witness :
    (SeqStrat.detect_leader 10
      [⟨0, "M1", "A", 1⟩, ⟨1, "M1", "B", 2⟩, ⟨2, "M1", "C", 3⟩,
       ⟨100, "M2", "B", 4⟩, ⟨101, "M2", "A", 5⟩,
       ⟨102, "M2", "C", 6⟩]).filter
        (fun c => decide (c.2.2.1 = ["A", "B", "C"])) =
      [("A", (["M1", "M2"], ["A", "B", "C"],
        [["A", "B", "C"], ["B", "A", "C"]]))] :=
  (C8_following_patterns 10
    [⟨0, "M1", "A", 1⟩, ⟨1, "M1", "B", 2⟩, ⟨2, "M1", "C", 3⟩,
     ⟨100, "M2", "B", 4⟩, ⟨101, "M2", "A", 5⟩, ⟨102, "M2", "C", 6⟩]
    ["A", "B", "C"]
    [("M1", [⟨0, "A", 1⟩, ⟨1, "B", 2⟩, ⟨2, "C", 3⟩]),
     ("M2", [⟨100, "B", 4⟩, ⟨101, "A", 5⟩, ⟨102, "C", 6⟩])]
    (by decide)).1 (by decide) (by decide)
